import Mathlib

/-!
Verification of the ecosystems commit-history pipeline.

The repository consists of two batch scripts:

* an ingestor: it parses a newline-delimited export, cleans repository URLs
  (`cleanRepoUrl`) and ecosystem labels (`cleanEcosystemName`), fetches the
  recent commits of each repository, and persists an append-only JSON
  collection with resume support (`main`'s fetch loop);
* a summarizer (`summarizeData`): it folds that collection into a per-day
  commit count and a per-ecosystem commit count.

Modelling conventions.  JavaScript strings that are inspected character by
character are modelled as `List Char`; other strings as `String`.  JavaScript
objects used as string-keyed counters are insertion-ordered association lists
`List (String × Nat)` (`bump` models `obj[k] += n` with the falsy-init guard,
`getv` models reading `obj[k]` with `undefined` read as `0`).  The external
collaborators are oracles passed as parameters: the GitHub fetch becomes
`fetch : String → Option (List CommitRecord)` (`none` = the catch branch of
`fetchCommitsForRepo`), and the JS date conversion
`new Date(d).toISOString().split('T')[0]` becomes
`toISO : String → Option String` (`none` = invalid date, where `toISOString`
throws).  File-system effects of the ingestor are modelled by the `file`
field of `IngestState` (`fs.writeFileSync` = overwriting that field); for the
summarizer, the `SummResult.ok` constructor carries exactly the data written
to the two output files, and the other constructors mean no write happened.
-/

namespace Ecosystems

/-- Does the second list start with the first one?  Used to model locating an
occurrence of a separator inside a JS string. -/
def beginsWith : List Char → List Char → Bool
  | [], _ => true
  | _ :: _, [] => false
  | a :: as, b :: bs => a == b && beginsWith as bs

/-- The segment of `s` before the first occurrence of `sep` (all of `s` when
`sep` does not occur): this is `s.split(sep)[0]` of JavaScript. -/
def firstSegment (sep : List Char) : List Char → List Char
  | [] => []
  | c :: cs => if beginsWith sep (c :: cs) then [] else c :: firstSegment sep cs

/-- JavaScript `String.prototype.trim`: drop leading and trailing whitespace. -/
def trimChars (s : List Char) : List Char :=
  ((s.dropWhile Char.isWhitespace).reverse.dropWhile Char.isWhitespace).reverse

/-- Model of `cleanEcosystemName` (part_000, lines 121-125):
`if (!name) return "Unknown"; return name.split(' - ')[0].trim();`.
The argument is `none` for an absent (`undefined`/`null`) label; the empty
string is falsy in JS, hence the separate `[]` test. -/
def cleanEcosystemName : Option (List Char) → List Char
  | none => "Unknown".data
  | some s => if s = [] then "Unknown".data else trimChars (firstSegment " - ".data s)

/-- Result of the JS `new URL(...)` parser (an external collaborator): the
fields of the parsed URL that `cleanRepoUrl` inspects. -/
structure URLParts where
  hostname : String
  pathname : List Char
  deriving DecidableEq

/-- Whether the JS regex `/.git$/` matches somewhere in `cs`: the dot in the
source is unescaped, so the regex matches any character other than a newline
followed by the literal `git` at the end of the string. -/
def regexDotGitMatches (cs : List Char) : Bool :=
  match cs.drop (cs.length - 4) with
  | [c, 'g', 'i', 't'] => c != '\n'
  | _ => false

/-- JavaScript `s.replace(/.git$/, '')`: remove the match (the last four
characters) when the regex matches, otherwise return the string unchanged. -/
def replaceDotGitEnd (cs : List Char) : List Char :=
  if regexDotGitMatches cs then cs.take (cs.length - 4) else cs

/-- JavaScript `s.split('/')`: note `''.split('/') = ['']`. -/
def splitSlash : List Char → List (List Char)
  | [] => [[]]
  | c :: cs =>
    if c = '/' then [] :: splitSlash cs
    else
      match splitSlash cs with
      | [] => [[c]]
      | seg :: rest => (c :: seg) :: rest

/-- Model of `cleanRepoUrl` (part_000, lines 127-140).  The argument is the
outcome of `new URL(url)`: `none` when the constructor throws (the catch
branch returns `null`).  Then the code rejects non-`github.com` hosts, takes
`pathname.substring(1)`, applies `.replace(/.git$/, '')`, splits on `/`, and
keeps the first two segments when there are at least two. -/
def cleanRepoUrl : Option URLParts → Option (List Char × List Char)
  | none => none
  | some u =>
    if u.hostname = "github.com" then
      match splitSlash (replaceDotGitEnd (u.pathname.drop 1)) with
      | p0 :: p1 :: _ => some (p0, p1)
      | _ => none
    else none

/-- One commit as projected by `fetchCommitsForRepo` (part_000, lines 155-160):
sha, author name (with the `"Unknown"` fallback already applied), author date
(may be absent), first line of the message. -/
structure CommitRecord where
  sha : String
  author : String
  date : Option String
  message : String
  deriving DecidableEq

/-- One element of the persisted collection (part_000, line 81). -/
structure RepoCommitHistory where
  repository : String
  ecosystem : String
  commits : List CommitRecord
  deriving DecidableEq

/-- One cleaned export line as produced by `parseInputFile`. -/
structure RepoRef where
  owner : String
  repo : String
  ecosystem : String
  deriving DecidableEq

/-- The `owner/repo` key used by the resume logic (part_000, line 71). -/
def fullName (r : RepoRef) : String := r.owner ++ "/" ++ r.repo

/-- State of the ingestor's fetch loop (part_000, lines 48-86):
`allCommitsData` and `processedRepos` are the in-memory accumulator and
processed-key set; `file` is the current content of the output file on disk
(the absent file is modelled as `[]`); `fetched` instruments the loop with
the list of keys for which `fetchCommitsForRepo` was actually called. -/
structure IngestState where
  allCommitsData : List RepoCommitHistory
  processedRepos : List String
  file : List RepoCommitHistory
  fetched : List String
  deriving DecidableEq

/-- One iteration of the fetch loop (part_000, lines 69-86): skip keys already
processed; otherwise fetch, and on success push the new entry and rewrite the
whole output file; in both cases mark the key processed. -/
def stepRepo (fetch : String → Option (List CommitRecord)) (s : IngestState)
    (r : RepoRef) : IngestState :=
  if fullName r ∈ s.processedRepos then s
  else
    match fetch (fullName r) with
    | some cs =>
      { allCommitsData := s.allCommitsData ++ [⟨fullName r, r.ecosystem, cs⟩]
        processedRepos := s.processedRepos ++ [fullName r]
        file := s.allCommitsData ++ [⟨fullName r, r.ecosystem, cs⟩]
        fetched := s.fetched ++ [fullName r] }
    | none =>
      { s with
        processedRepos := s.processedRepos ++ [fullName r]
        fetched := s.fetched ++ [fullName r] }

/-- The fetch loop over the parsed repository list, in file order. -/
def runLoop (fetch : String → Option (List CommitRecord)) :
    IngestState → List RepoRef → IngestState
  | s, [] => s
  | s, r :: rs => runLoop fetch (stepRepo fetch s r) rs

/-- Loading prior progress (part_000, lines 51-63): `none` models an absent
output file, `some prior` an existing file that parses as the collection
`prior`; the processed-key set is rebuilt from the `repository` fields. -/
def initState : Option (List RepoCommitHistory) → IngestState
  | none => ⟨[], [], [], []⟩
  | some prior => ⟨prior, prior.map (·.repository), prior, []⟩

/-- One full run of the ingestor: load prior progress, run the fetch loop,
and perform the final flush (part_000, line 89). -/
def runIngest (fetch : String → Option (List CommitRecord))
    (prior : Option (List RepoCommitHistory)) (repos : List RepoRef) : IngestState :=
  let s := runLoop fetch (initState prior) repos
  { s with file := s.allCommitsData }

/-- JavaScript `if (!obj[k]) obj[k] = 0; obj[k] += n` on a string-keyed
counter object, modelled as an insertion-ordered association list: an
existing key is updated in place, a missing key is appended at the end. -/
def bump : List (String × Nat) → String → Nat → List (String × Nat)
  | [], k, n => [(k, n)]
  | p :: m, k, n => if p.1 = k then (p.1, p.2 + n) :: m else p :: bump m k n

/-- Reading `obj[k]` from a counter object, with `undefined` read as `0`. -/
def getv : List (String × Nat) → String → Nat
  | [], _ => 0
  | p :: m, k => if p.1 = k then p.2 else getv m k

/-- JavaScript truthiness of `commit.date`: an absent date and the empty
string are falsy, any other string is truthy. -/
def truthyDate (c : CommitRecord) : Option String :=
  match c.date with
  | none => none
  | some d => if d = "" then none else some d

/-- The day under which a commit is counted by the daily aggregation, when it
is counted at all: its truthy date sent through the date oracle. -/
def dayKey (toISO : String → Option String) (c : CommitRecord) : Option String :=
  match truthyDate c with
  | none => none
  | some d => toISO d

/-- The inner loop of the daily aggregation (summarize.ts, lines 22-28):
skip falsy dates, convert the date, bump the day's counter; `none` models the
uncaught exception thrown by `toISOString` on an invalid date. -/
def dailyAddCommits (toISO : String → Option String) :
    List (String × Nat) → List CommitRecord → Option (List (String × Nat))
  | acc, [] => some acc
  | acc, c :: cs =>
    match truthyDate c with
    | none => dailyAddCommits toISO acc cs
    | some d =>
      match toISO d with
      | none => none
      | some k => dailyAddCommits toISO (bump acc k 1) cs

/-- The outer loop of the daily aggregation (summarize.ts, lines 21-29). -/
def dailyAgg (toISO : String → Option String) :
    List (String × Nat) → List RepoCommitHistory → Option (List (String × Nat))
  | acc, [] => some acc
  | acc, rd :: rest =>
    match dailyAddCommits toISO acc rd.commits with
    | none => none
    | some acc2 => dailyAgg toISO acc2 rest

/-- The ecosystem aggregation (summarize.ts, lines 32-40): running pair of the
per-ecosystem counter object and `totalCommits`. -/
def ecoAgg : List (String × Nat) × Nat → List RepoCommitHistory → List (String × Nat) × Nat
  | acc, [] => acc
  | acc, rd :: rest =>
    ecoAgg (bump acc.1 rd.ecosystem rd.commits.length, acc.2 + rd.commits.length) rest

/-- Outcome of one run of the summarizer.  `noInput`: the input file does not
exist, an error is reported and nothing is written.  `dateError`: the daily
aggregation threw on an invalid date, nothing is written.  `ok daily eco
total`: both loops completed and the two output files were written with
exactly this data. -/
inductive SummResult where
  | noInput : SummResult
  | dateError : SummResult
  | ok : List (String × Nat) → List (String × Nat) → Nat → SummResult
  deriving DecidableEq

/-- Model of `summarizeData` (summarize.ts, lines 8-50): existence check on
the input file, daily aggregation, ecosystem aggregation, then the writes. -/
def summarizeData (toISO : String → Option String)
    (input : Option (List RepoCommitHistory)) : SummResult :=
  match input with
  | none => SummResult.noInput
  | some data =>
    match dailyAgg toISO [] data with
    | none => SummResult.dateError
    | some daily => SummResult.ok daily (ecoAgg ([], 0) data).1 (ecoAgg ([], 0) data).2

/-- Specification-side count: how many commits of `cs` the daily aggregation
books under day `k`. -/
def countDay (toISO : String → Option String) (k : String) : List CommitRecord → Nat
  | [] => 0
  | c :: cs => (if dayKey toISO c = some k then 1 else 0) + countDay toISO k cs

/-- Specification-side count of day `k` over the whole collection. -/
def dailyCount (toISO : String → Option String) (k : String) :
    List RepoCommitHistory → Nat
  | [] => 0
  | rd :: rest => countDay toISO k rd.commits + dailyCount toISO k rest

/-- Specification-side count of ecosystem `e` over the whole collection:
every commit of an entry counts, dated or not. -/
def ecoCount (e : String) : List RepoCommitHistory → Nat
  | [] => 0
  | rd :: rest => (if rd.ecosystem = e then rd.commits.length else 0) + ecoCount e rest

/-- Specification-side total number of commit records in the collection. -/
def totalCount : List RepoCommitHistory → Nat
  | [] => 0
  | rd :: rest => rd.commits.length + totalCount rest

/-- A commit the daily aggregation can process without throwing: its truthy
date, if any, is a valid date. -/
def commitOK (toISO : String → Option String) (c : CommitRecord) : Prop :=
  ∀ d, truthyDate c = some d → toISO d ≠ none

/-- Two collection entries that agree except for the order of their commits. -/
def EntryPerm (a b : RepoCommitHistory) : Prop :=
  a.repository = b.repository ∧ a.ecosystem = b.ecosystem ∧ List.Perm a.commits b.commits

/-- `y` is obtained from `x` by permuting the commits inside entries and then
permuting the entries themselves. -/
def CollPerm (x y : List RepoCommitHistory) : Prop :=
  ∃ z, List.Forall₂ EntryPerm x z ∧ List.Perm z y

/-- Two summarizer outcomes that are identical as results: same kind of
outcome, and for successful runs the same daily mapping, the same ecosystem
mapping, and the same overall total. -/
def ResultEquiv : SummResult → SummResult → Prop
  | SummResult.noInput, SummResult.noInput => True
  | SummResult.dateError, SummResult.dateError => True
  | SummResult.ok d1 e1 t1, SummResult.ok d2 e2 t2 =>
      (∀ k, getv d1 k = getv d2 k) ∧ (∀ e, getv e1 e = getv e2 e) ∧ t1 = t2
  | _, _ => False

lemma mem_processed_runLoop_of_mem (fetch : String → Option (List CommitRecord))
    (repos : List RepoRef) (s : IngestState) (x : String)
    (h : x ∈ s.processedRepos) : x ∈ (runLoop fetch s repos).processedRepos := by
  induction repos generalizing s with
  | nil => simpa [runLoop] using h
  | cons r rs ih =>
    simp only [runLoop]
    apply ih
    unfold stepRepo
    split
    · exact h
    · split <;> simp [h]

lemma mem_fetched_runLoop_of_mem (fetch : String → Option (List CommitRecord))
    (repos : List RepoRef) (s : IngestState) (x : String)
    (h : x ∈ s.fetched) : x ∈ (runLoop fetch s repos).fetched := by
  induction repos generalizing s with
  | nil => simpa [runLoop] using h
  | cons r rs ih =>
    simp only [runLoop]
    apply ih
    unfold stepRepo
    split
    · exact h
    · split <;> simp [h]

lemma mem_processed_runLoop_self (fetch : String → Option (List CommitRecord))
    (repos : List RepoRef) (s : IngestState) (r : RepoRef)
    (h : r ∈ repos) : fullName r ∈ (runLoop fetch s repos).processedRepos := by
  induction repos generalizing s with
  | nil => cases h
  | cons a rs ih =>
    rcases List.mem_cons.mp h with h | h
    · subst h
      simp only [runLoop]
      apply mem_processed_runLoop_of_mem
      unfold stepRepo
      split
      · assumption
      · split <;> simp
    · simp only [runLoop]
      exact ih _ h

lemma stepRepo_cases (fetch : String → Option (List CommitRecord))
    (s : IngestState) (r : RepoRef) :
    stepRepo fetch s r = s ∨
    ((stepRepo fetch s r).processedRepos = s.processedRepos ++ [fullName r] ∧
      (stepRepo fetch s r).fetched = s.fetched ++ [fullName r]) := by
  unfold stepRepo
  split
  · exact Or.inl rfl
  · split
    · exact Or.inr ⟨rfl, rfl⟩
    · exact Or.inr ⟨rfl, rfl⟩

lemma processed_sub_runLoop (fetch : String → Option (List CommitRecord))
    (repos : List RepoRef) (s : IngestState) (x : String)
    (h : x ∈ (runLoop fetch s repos).processedRepos) :
    x ∈ s.processedRepos ∨ x ∈ (runLoop fetch s repos).fetched := by
  induction repos generalizing s with
  | nil => exact Or.inl (by simpa [runLoop] using h)
  | cons r rs ih =>
    simp only [runLoop] at h ⊢
    rcases ih _ h with h1 | h1
    · rcases stepRepo_cases fetch s r with h2 | ⟨h2, h3⟩
      · rw [h2] at h1
        exact Or.inl h1
      · rw [h2] at h1
        rcases List.mem_append.mp h1 with h4 | h4
        · exact Or.inl h4
        · refine Or.inr (mem_fetched_runLoop_of_mem fetch rs _ x ?_)
          rw [h3]
          exact List.mem_append.mpr (Or.inr h4)
    · exact Or.inr h1

lemma fetched_nodup_runLoop (fetch : String → Option (List CommitRecord))
    (repos : List RepoRef) (s : IngestState)
    (h1 : s.fetched.Nodup) (h2 : ∀ x ∈ s.fetched, x ∈ s.processedRepos) :
    (runLoop fetch s repos).fetched.Nodup := by
  induction repos generalizing s with
  | nil => simpa [runLoop] using h1
  | cons r rs ih =>
    simp only [runLoop]
    by_cases hp : fullName r ∈ s.processedRepos
    · have hs : stepRepo fetch s r = s := by simp [stepRepo, hp]
      rw [hs]
      exact ih s h1 h2
    · have hnf : fullName r ∉ s.fetched := fun hx => hp (h2 _ hx)
      have hcat : (s.fetched ++ [fullName r]).Nodup := by
        have hc := List.Nodup.concat hnf h1
        rwa [List.concat_eq_append] at hc
      have hmem : ∀ x ∈ s.fetched ++ [fullName r], x ∈ s.processedRepos ++ [fullName r] := by
        intro x hx
        simp only [List.mem_append, List.mem_singleton] at hx ⊢
        rcases hx with hx | hx
        · exact Or.inl (h2 _ hx)
        · exact Or.inr hx
      refine ih _ ?_ ?_ <;> unfold stepRepo <;> rw [if_neg hp]
      · split <;> exact hcat
      · split <;> exact hmem

lemma data_provenance_runLoop (fetch : String → Option (List CommitRecord))
    (repos : List RepoRef) (s : IngestState) (e : RepoCommitHistory)
    (h : e ∈ (runLoop fetch s repos).allCommitsData) :
    e ∈ s.allCommitsData ∨ fetch e.repository = some e.commits := by
  induction repos generalizing s with
  | nil => exact Or.inl (by simpa [runLoop] using h)
  | cons r rs ih =>
    simp only [runLoop] at h
    rcases ih _ h with h1 | h1
    · unfold stepRepo at h1
      split at h1
      · exact Or.inl h1
      · split at h1
        · simp only [List.mem_append, List.mem_singleton] at h1
          rcases h1 with h1 | h1
          · exact Or.inl h1
          · subst h1
            exact Or.inr (by assumption)
        · exact Or.inl h1
    · exact Or.inr h1

lemma data_runLoop_append (fetch : String → Option (List CommitRecord))
    (repos : List RepoRef) (s : IngestState) :
    ∃ t, (runLoop fetch s repos).allCommitsData = s.allCommitsData ++ t := by
  induction repos generalizing s with
  | nil => exact ⟨[], by simp [runLoop]⟩
  | cons r rs ih =>
    simp only [runLoop]
    obtain ⟨t, ht⟩ := ih (stepRepo fetch s r)
    rw [ht]
    unfold stepRepo
    split
    · exact ⟨t, rfl⟩
    · split
      · next cs heq =>
        exact ⟨{ repository := fullName r, ecosystem := r.ecosystem, commits := cs } :: t,
          by simp⟩
      · exact ⟨t, rfl⟩

lemma file_eq_data_runLoop (fetch : String → Option (List CommitRecord))
    (repos : List RepoRef) (s : IngestState) (h : s.file = s.allCommitsData) :
    (runLoop fetch s repos).file = (runLoop fetch s repos).allCommitsData := by
  induction repos generalizing s with
  | nil => simpa [runLoop] using h
  | cons r rs ih =>
    simp only [runLoop]
    apply ih
    unfold stepRepo
    split
    · exact h
    · split
      · rfl
      · exact h

lemma keys_nodup_runLoop (fetch : String → Option (List CommitRecord))
    (repos : List RepoRef) (s : IngestState)
    (h1 : (s.allCommitsData.map (·.repository)).Nodup)
    (h2 : ∀ k ∈ s.allCommitsData.map (·.repository), k ∈ s.processedRepos) :
    ((runLoop fetch s repos).allCommitsData.map (·.repository)).Nodup := by
  induction repos generalizing s with
  | nil => simpa [runLoop] using h1
  | cons r rs ih =>
    simp only [runLoop]
    by_cases hp : fullName r ∈ s.processedRepos
    · have hs : stepRepo fetch s r = s := by simp [stepRepo, hp]
      rw [hs]
      exact ih s h1 h2
    · have hnk : fullName r ∉ s.allCommitsData.map (·.repository) := fun hx => hp (h2 _ hx)
      have hcat : (s.allCommitsData.map (·.repository) ++ [fullName r]).Nodup := by
        have hc := List.Nodup.concat hnk h1
        rwa [List.concat_eq_append] at hc
      refine ih _ ?_ ?_ <;> unfold stepRepo <;> rw [if_neg hp]
      · split
        · simpa using hcat
        · exact h1
      · split
        · intro k hk
          simp only [List.map_append, List.map_cons, List.map_nil, List.mem_append,
            List.mem_singleton] at hk
          simp only [List.mem_append, List.mem_singleton]
          rcases hk with hk | hk
          · exact Or.inl (h2 _ hk)
          · exact Or.inr hk
        · intro k hk
          simp only [List.mem_append, List.mem_singleton]
          exact Or.inl (h2 _ hk)

lemma fetched_of_mem_of_not_processed (fetch : String → Option (List CommitRecord))
    (repos : List RepoRef) (s : IngestState) (r : RepoRef)
    (hr : r ∈ repos) (hnp : fullName r ∉ s.processedRepos) :
    fullName r ∈ (runLoop fetch s repos).fetched := by
  rcases processed_sub_runLoop fetch repos s (fullName r)
      (mem_processed_runLoop_self fetch repos s r hr) with h | h
  · exact absurd h hnp
  · exact h

lemma runIngest_processed (fetch : String → Option (List CommitRecord))
    (prior : Option (List RepoCommitHistory)) (repos : List RepoRef) :
    (runIngest fetch prior repos).processedRepos =
      (runLoop fetch (initState prior) repos).processedRepos := rfl

lemma runIngest_fetched (fetch : String → Option (List CommitRecord))
    (prior : Option (List RepoCommitHistory)) (repos : List RepoRef) :
    (runIngest fetch prior repos).fetched =
      (runLoop fetch (initState prior) repos).fetched := rfl

lemma runIngest_data (fetch : String → Option (List CommitRecord))
    (prior : Option (List RepoCommitHistory)) (repos : List RepoRef) :
    (runIngest fetch prior repos).allCommitsData =
      (runLoop fetch (initState prior) repos).allCommitsData := rfl

lemma runIngest_file (fetch : String → Option (List CommitRecord))
    (prior : Option (List RepoCommitHistory)) (repos : List RepoRef) :
    (runIngest fetch prior repos).file =
      (runLoop fetch (initState prior) repos).allCommitsData := rfl

/-- C2 counterexample: the claim says a repository whose fetch failed is never
retried on a future run.  Concretely, the fetch of `a/b` fails (the oracle
returns `none` for every key), the first run therefore saves nothing for it,
and a second run started from the first run's output file calls the fetch for
`a/b` again — its `fetched` instrumentation list is exactly `["a/b"]`. -/
theorem c2_counterexample :
    ((fun _ => none : String → Option (List CommitRecord)) "a/b" = none) ∧
    (runIngest (fun _ => none)
        (some (runIngest (fun _ => none) none [⟨"a", "b", "Eco"⟩]).file)
        [⟨"a", "b", "Eco"⟩]).fetched = ["a/b"] := by
  exact ⟨rfl, by decide⟩

/-- C2 (amended): for every repository whose fetch fails, the ingestor marks
it processed in memory, so it is fetched exactly once on the current run
(count 1 in the instrumentation list), and no RepoCommitHistory entry is
added for it; the loop continues with the other repositories.  However,
because the processed set of a later run is rebuilt from the successfully
saved entries only, the repository is fetched again on a future run started
from this run's output file. -/
theorem c2_amended (fetch : String → Option (List CommitRecord)) (repos : List RepoRef)
    (r : RepoRef) (hr : r ∈ repos) (hf : fetch (fullName r) = none) :
    fullName r ∈ (runIngest fetch none repos).processedRepos ∧
    (runIngest fetch none repos).fetched.count (fullName r) = 1 ∧
    (∀ e ∈ (runIngest fetch none repos).allCommitsData, e.repository ≠ fullName r) ∧
    fullName r ∈ (runIngest fetch (some (runIngest fetch none repos).file) repos).fetched := by
  have hdata : ∀ e ∈ (runIngest fetch none repos).allCommitsData,
      e.repository ≠ fullName r := by
    rw [runIngest_data]
    intro e he heq
    rcases data_provenance_runLoop fetch repos _ e he with h | h
    · simp [initState] at h
    · rw [heq, hf] at h
      cases h
  refine ⟨?_, ?_, hdata, ?_⟩
  · rw [runIngest_processed]
    exact mem_processed_runLoop_self fetch repos _ r hr
  · rw [runIngest_fetched]
    have hnd : (runLoop fetch (initState none) repos).fetched.Nodup :=
      fetched_nodup_runLoop fetch repos _ (by simp [initState]) (by simp [initState])
    have hmem : fullName r ∈ (runLoop fetch (initState none) repos).fetched :=
      fetched_of_mem_of_not_processed fetch repos _ r hr (by simp [initState])
    exact List.count_eq_one_of_mem hnd hmem
  · rw [runIngest_fetched]
    apply fetched_of_mem_of_not_processed fetch repos _ r hr
    simp only [initState, List.mem_map, not_exists]
    rintro e ⟨he, heq⟩
    rw [runIngest_file] at he
    rcases data_provenance_runLoop fetch repos _ e he with h | h
    · simp [initState] at h
    · rw [heq, hf] at h
      cases h

/-- C2 witness: concrete instantiation of the amended claim with a single
repository whose fetch fails. -/
theorem c2_amended_witness :
    ((⟨"a", "b", "Eco"⟩ : RepoRef) ∈ ([⟨"a", "b", "Eco"⟩] : List RepoRef)) ∧
    (fullName ⟨"a", "b", "Eco"⟩ ∈
        (runIngest (fun _ => none) none [⟨"a", "b", "Eco"⟩]).processedRepos ∧
      (runIngest (fun _ => none) none [⟨"a", "b", "Eco"⟩]).fetched.count
        (fullName ⟨"a", "b", "Eco"⟩) = 1 ∧
      (∀ e ∈ (runIngest (fun _ => none) none [⟨"a", "b", "Eco"⟩]).allCommitsData,
        e.repository ≠ fullName ⟨"a", "b", "Eco"⟩) ∧
      fullName ⟨"a", "b", "Eco"⟩ ∈
        (runIngest (fun _ => none)
          (some (runIngest (fun _ => none) none [⟨"a", "b", "Eco"⟩]).file)
          [⟨"a", "b", "Eco"⟩]).fetched) :=
  ⟨by decide,
    c2_amended (fun _ => none) [⟨"a", "b", "Eco"⟩] ⟨"a", "b", "Eco"⟩ (by decide) rfl⟩

/-- C3 counterexample: the claim quantifies over every non-empty prior output
collection, but a prior collection that already contains a duplicate
`repository` key keeps its duplicate through two runs of the ingestor (here
with an empty input list), so the output collection does have duplicate
`repository` keys. -/
theorem c3_counterexample :
    ¬ (((runIngest (fun _ => none)
          (some ((runIngest (fun _ => none)
            (some [⟨"a/b", "E1", []⟩, ⟨"a/b", "E2", []⟩]) ([] : List RepoRef)).file))
          ([] : List RepoRef)).file.map (·.repository)).Nodup) := by
  decide

/-- C3 (amended): for every input list and every prior output collection whose
`repository` keys are pairwise distinct (as is the case for every collection
the ingestor itself writes), running the ingestor twice against the same
input produces an output collection with no duplicate `repository` keys, and
the second run's output extends the first run's output by appending only, so
every entry present before the second run is field-for-field identical
afterwards. -/
theorem c3_amended (f1 f2 : String → Option (List CommitRecord)) (repos : List RepoRef)
    (E0 : List RepoCommitHistory) (h0 : (E0.map (·.repository)).Nodup) :
    (((runIngest f2 (some (runIngest f1 (some E0) repos).file) repos).file.map
        (·.repository)).Nodup) ∧
    ∃ t, (runIngest f2 (some (runIngest f1 (some E0) repos).file) repos).file =
      (runIngest f1 (some E0) repos).file ++ t := by
  have key : ∀ (f : String → Option (List CommitRecord)) (E : List RepoCommitHistory),
      (E.map (·.repository)).Nodup →
      (((runIngest f (some E) repos).file.map (·.repository)).Nodup) := by
    intro f E hE
    rw [runIngest_file]
    refine keys_nodup_runLoop f repos (initState (some E))
      (by simpa [initState] using hE) ?_
    intro k hk
    simpa [initState] using hk
  refine ⟨key f2 _ (key f1 E0 h0), ?_⟩
  simp only [runIngest_file]
  have hap := data_runLoop_append f2 repos
    (initState (some (runLoop f1 (initState (some E0)) repos).allCommitsData))
  simpa [initState] using hap

/-- C3 witness: a concrete instantiation of the amended claim, with a
one-entry prior collection and a one-repository input list whose fetch
succeeds with an empty commit list. -/
theorem c3_amended_witness :
    (([⟨"a/b", "E", []⟩] : List RepoCommitHistory).map (·.repository)).Nodup ∧
    ((((runIngest (fun _ => some []) (some (runIngest (fun _ => some [])
          (some [⟨"a/b", "E", []⟩]) [⟨"c", "d", "F"⟩]).file) [⟨"c", "d", "F"⟩]).file.map
            (·.repository)).Nodup) ∧
      ∃ t, (runIngest (fun _ => some []) (some (runIngest (fun _ => some [])
          (some [⟨"a/b", "E", []⟩]) [⟨"c", "d", "F"⟩]).file) [⟨"c", "d", "F"⟩]).file =
        (runIngest (fun _ => some []) (some [⟨"a/b", "E", []⟩]) [⟨"c", "d", "F"⟩]).file ++ t) :=
  ⟨by decide, c3_amended (fun _ => some []) (fun _ => some []) [⟨"c", "d", "F"⟩]
    [⟨"a/b", "E", []⟩] (by decide)⟩

/-- C4: starting from an absent or cleanly parsed output file, at every point
of the fetch loop (after processing any leading part `p` of the repository
list) the on-disk file equals the full in-memory collection, that collection
extends the initially loaded one by appending only (so the file contains
every previously saved entry and a crash loses at most the in-flight fetch),
and every successful fetch immediately rewrites the file to the previous
collection plus the one new entry. -/
theorem c4_write_through (fetch : String → Option (List CommitRecord))
    (prior : Option (List RepoCommitHistory)) (repos p t : List RepoRef)
    (_hsplit : repos = p ++ t) :
    (runLoop fetch (initState prior) p).file =
      (runLoop fetch (initState prior) p).allCommitsData ∧
    (∃ u, (runLoop fetch (initState prior) p).file =
      (initState prior).allCommitsData ++ u) ∧
    (∀ r cs, fullName r ∉ (runLoop fetch (initState prior) p).processedRepos →
      fetch (fullName r) = some cs →
      (stepRepo fetch (runLoop fetch (initState prior) p) r).file =
        (runLoop fetch (initState prior) p).allCommitsData ++
          [⟨fullName r, r.ecosystem, cs⟩]) := by
  have hinit : (initState prior).file = (initState prior).allCommitsData := by
    cases prior <;> rfl
  have hfd := file_eq_data_runLoop fetch p (initState prior) hinit
  refine ⟨hfd, ?_, ?_⟩
  · rw [hfd]
    exact data_runLoop_append fetch p (initState prior)
  · intro r cs hnp hf
    unfold stepRepo
    rw [if_neg hnp, hf]

/-- C4 witness: concrete instantiation with one repository processed out of a
one-element input list, started from an absent output file. -/
theorem c4_write_through_witness :
    ([⟨"a", "b", "E"⟩] : List RepoRef) = [⟨"a", "b", "E"⟩] ++ [] ∧
    ((runLoop (fun _ => some []) (initState none) [⟨"a", "b", "E"⟩]).file =
        (runLoop (fun _ => some []) (initState none) [⟨"a", "b", "E"⟩]).allCommitsData ∧
      (∃ u, (runLoop (fun _ => some []) (initState none) [⟨"a", "b", "E"⟩]).file =
        (initState none).allCommitsData ++ u) ∧
      (∀ r cs,
        fullName r ∉ (runLoop (fun _ => some []) (initState none)
          [⟨"a", "b", "E"⟩]).processedRepos →
        (fun _ => some [] : String → Option (List CommitRecord)) (fullName r) = some cs →
        (stepRepo (fun _ => some [])
            (runLoop (fun _ => some []) (initState none) [⟨"a", "b", "E"⟩]) r).file =
          (runLoop (fun _ => some []) (initState none) [⟨"a", "b", "E"⟩]).allCommitsData ++
            [⟨fullName r, r.ecosystem, cs⟩])) :=
  ⟨by simp, c4_write_through (fun _ => some []) none [⟨"a", "b", "E"⟩]
    [⟨"a", "b", "E"⟩] [] (by simp)⟩

lemma getv_bump_self (m : List (String × Nat)) (k : String) (n : Nat) :
    getv (bump m k n) k = getv m k + n := by
  induction m with
  | nil => simp [bump, getv]
  | cons p m ih =>
    by_cases hk : p.1 = k
    · simp [bump, getv, hk]
    · simp [bump, getv, hk, ih]

lemma getv_bump_ne (m : List (String × Nat)) (k k' : String) (n : Nat) (h : k' ≠ k) :
    getv (bump m k n) k' = getv m k' := by
  have hkk : ¬ k = k' := fun hc => h hc.symm
  induction m with
  | nil => simp [bump, getv, hkk]
  | cons p m ih =>
    by_cases hk : p.1 = k
    · simp [bump, getv, hk, hkk]
    · by_cases hk2 : p.1 = k'
      · simp [bump, getv, hk, hk2, h]
      · simp [bump, getv, hk, hk2, ih]

lemma snd_sum_bump (m : List (String × Nat)) (k : String) (n : Nat) :
    ((bump m k n).map Prod.snd).sum = (m.map Prod.snd).sum + n := by
  induction m with
  | nil => simp [bump]
  | cons p m ih =>
    by_cases hk : p.1 = k
    · simp [bump, hk]
      omega
    · simp [bump, hk, ih]
      omega

lemma dailyAddCommits_eq_some (toISO : String → Option String)
    (cs : List CommitRecord) (acc out : List (String × Nat))
    (h : dailyAddCommits toISO acc cs = some out) (k : String) :
    getv out k = getv acc k + countDay toISO k cs := by
  induction cs generalizing acc with
  | nil =>
    simp only [dailyAddCommits, Option.some.injEq] at h
    simp [h, countDay]
  | cons c cs ih =>
    simp only [dailyAddCommits] at h
    cases htc : truthyDate c with
    | none =>
      simp only [htc] at h
      rw [ih acc h]
      simp [countDay, dayKey, htc]
    | some d =>
      simp only [htc] at h
      cases hiso : toISO d with
      | none =>
        simp only [hiso] at h
        exact Option.noConfusion h
      | some k2 =>
        simp only [hiso] at h
        rw [ih _ h]
        by_cases hkk : k2 = k
        · subst hkk
          rw [getv_bump_self]
          simp [countDay, dayKey, htc, hiso]
          omega
        · rw [getv_bump_ne _ _ _ _ (fun hc => hkk hc.symm)]
          have hnk : ¬ dayKey toISO c = some k := by
            simp [dayKey, htc, hiso]
            exact hkk
          simp [countDay, hnk]

lemma dailyAddCommits_ne_none_iff (toISO : String → Option String)
    (cs : List CommitRecord) (acc : List (String × Nat)) :
    dailyAddCommits toISO acc cs ≠ none ↔ ∀ c ∈ cs, commitOK toISO c := by
  induction cs generalizing acc with
  | nil => simp [dailyAddCommits]
  | cons c cs ih =>
    simp only [dailyAddCommits]
    cases htc : truthyDate c with
    | none =>
      simp only [htc]
      rw [ih acc]
      constructor
      · intro h c2 hc2
        rcases List.mem_cons.mp hc2 with h2 | h2
        · subst h2
          intro d hd
          rw [htc] at hd
          cases hd
        · exact h c2 h2
      · intro h c2 hc2
        exact h c2 (List.mem_cons_of_mem _ hc2)
    | some d =>
      simp only [htc]
      cases hiso : toISO d with
      | none =>
        simp only [hiso]
        constructor
        · intro hcon
          exact absurd rfl hcon
        · intro hall _
          exact absurd hiso (hall c (List.mem_cons_self _ _) d htc)
      | some k =>
        simp only [hiso]
        rw [ih _]
        constructor
        · intro h c2 hc2
          rcases List.mem_cons.mp hc2 with h2 | h2
          · subst h2
            intro d2 hd2
            rw [htc] at hd2
            cases hd2
            simp [hiso]
          · exact h c2 h2
        · intro h c2 hc2
          exact h c2 (List.mem_cons_of_mem _ hc2)

lemma dailyAgg_eq_some (toISO : String → Option String)
    (data : List RepoCommitHistory) (acc out : List (String × Nat))
    (h : dailyAgg toISO acc data = some out) (k : String) :
    getv out k = getv acc k + dailyCount toISO k data := by
  induction data generalizing acc with
  | nil =>
    simp only [dailyAgg, Option.some.injEq] at h
    simp [h, dailyCount]
  | cons rd rest ih =>
    simp only [dailyAgg] at h
    cases hadd : dailyAddCommits toISO acc rd.commits with
    | none =>
      simp only [hadd] at h
      exact Option.noConfusion h
    | some acc2 =>
      simp only [hadd] at h
      rw [ih _ h, dailyAddCommits_eq_some toISO rd.commits acc acc2 hadd k]
      simp [dailyCount]
      omega

lemma dailyAgg_ne_none_iff (toISO : String → Option String)
    (data : List RepoCommitHistory) (acc : List (String × Nat)) :
    dailyAgg toISO acc data ≠ none ↔
      ∀ rd ∈ data, ∀ c ∈ rd.commits, commitOK toISO c := by
  induction data generalizing acc with
  | nil => simp [dailyAgg]
  | cons rd rest ih =>
    simp only [dailyAgg]
    cases hadd : dailyAddCommits toISO acc rd.commits with
    | none =>
      simp only [hadd, ne_eq, not_true_eq_false, false_iff, not_forall]
      have hbad := (not_iff_not.mpr (dailyAddCommits_ne_none_iff toISO rd.commits acc)).mp
        (by simp [hadd])
      simp only [not_forall] at hbad
      obtain ⟨c, hc, hnok⟩ := hbad
      exact ⟨rd, List.mem_cons_self _ _, c, hc, hnok⟩
    | some acc2 =>
      simp only [hadd]
      rw [ih acc2]
      have hok : ∀ c ∈ rd.commits, commitOK toISO c :=
        (dailyAddCommits_ne_none_iff toISO rd.commits acc).mp (by simp [hadd])
      constructor
      · intro h rd2 hrd2
        rcases List.mem_cons.mp hrd2 with h2 | h2
        · subst h2
          exact hok
        · exact h rd2 h2
      · intro h rd2 hrd2
        exact h rd2 (List.mem_cons_of_mem _ hrd2)

lemma ecoAgg_snd (data : List RepoCommitHistory) (m : List (String × Nat)) (t : Nat) :
    (ecoAgg (m, t) data).2 = t + totalCount data := by
  induction data generalizing m t with
  | nil => simp [ecoAgg, totalCount]
  | cons rd rest ih =>
    simp only [ecoAgg, totalCount]
    rw [ih]
    omega

lemma ecoAgg_getv (data : List RepoCommitHistory) (m : List (String × Nat)) (t : Nat)
    (e : String) : getv (ecoAgg (m, t) data).1 e = getv m e + ecoCount e data := by
  induction data generalizing m t with
  | nil => simp [ecoAgg, ecoCount]
  | cons rd rest ih =>
    simp only [ecoAgg, ecoCount]
    rw [ih]
    by_cases he : rd.ecosystem = e
    · subst he
      rw [getv_bump_self]
      simp
      omega
    · rw [getv_bump_ne _ _ _ _ (fun hc => he hc.symm)]
      simp [he]

lemma ecoAgg_sum (data : List RepoCommitHistory) (m : List (String × Nat)) (t : Nat) :
    ((ecoAgg (m, t) data).1.map Prod.snd).sum = (m.map Prod.snd).sum + totalCount data := by
  induction data generalizing m t with
  | nil => simp [ecoAgg, totalCount]
  | cons rd rest ih =>
    simp only [ecoAgg, totalCount]
    rw [ih, snd_sum_bump]
    omega

/-- C9: when the summarizer's input collection file does not exist, the run
ends in the `noInput` outcome: the error is reported and nothing is computed
or written — neither the DailySummary file nor the EcosystemSummary file (the
only writing outcome of the model is `SummResult.ok`). -/
theorem c9_missing_input (toISO : String → Option String) :
    summarizeData toISO none = SummResult.noInput := rfl

/-- C10: if any commit record of the input has a truthy (present, non-empty)
date on which the date conversion fails (JS `new Date(d).toISOString()`
throws on an invalid date), the whole summarizer run ends in the `dateError`
outcome: the daily aggregation aborts and neither output file is written. -/
theorem c10_invalid_date (toISO : String → Option String) (data : List RepoCommitHistory)
    (rd : RepoCommitHistory) (c : CommitRecord) (d : String)
    (hrd : rd ∈ data) (hc : c ∈ rd.commits) (hd : c.date = some d) (hne : d ≠ "")
    (hbad : toISO d = none) :
    summarizeData toISO (some data) = SummResult.dateError := by
  have hagg : dailyAgg toISO [] data = none := by
    by_contra hcon
    have hok := (dailyAgg_ne_none_iff toISO data []).mp hcon
    have htc : truthyDate c = some d := by
      simp [truthyDate, hd, hne]
    exact hok rd hrd c hc d htc hbad
  simp [summarizeData, hagg]

/-- C10 witness: a concrete run with a single commit carrying the unparseable
date `"x"` (the oracle rejects every string) ends in `dateError`. -/
theorem c10_invalid_date_witness :
    ((⟨"a/b", "E", [⟨"s", "al", some "x", "m"⟩]⟩ : RepoCommitHistory) ∈
      ([⟨"a/b", "E", [⟨"s", "al", some "x", "m"⟩]⟩] : List RepoCommitHistory)) ∧
    ((⟨"s", "al", some "x", "m"⟩ : CommitRecord) ∈
      (⟨"a/b", "E", [⟨"s", "al", some "x", "m"⟩]⟩ : RepoCommitHistory).commits) ∧
    summarizeData (fun _ => none) (some [⟨"a/b", "E", [⟨"s", "al", some "x", "m"⟩]⟩]) =
      SummResult.dateError :=
  ⟨by decide, by decide,
    c10_invalid_date (fun _ => none) _ ⟨"a/b", "E", [⟨"s", "al", some "x", "m"⟩]⟩
      ⟨"s", "al", some "x", "m"⟩ "x" (by decide) (by decide) rfl (by decide) rfl⟩

/-- C5: on every run of the summarizer that produces output, the
`overallTotal` equals the sum of all values of the ecosystem totals mapping,
and also equals the total number of commit records across the whole input
collection, commits with absent dates included. -/
theorem c5_overall_total (toISO : String → Option String) (data : List RepoCommitHistory)
    (daily eco : List (String × Nat)) (total : Nat)
    (h : summarizeData toISO (some data) = SummResult.ok daily eco total) :
    total = (eco.map Prod.snd).sum ∧ total = totalCount data := by
  simp only [summarizeData] at h
  cases hda : dailyAgg toISO [] data with
  | none =>
    simp only [hda] at h
    exact SummResult.noConfusion h
  | some d0 =>
    simp only [hda] at h
    injection h with h1 h2 h3
    constructor
    · rw [← h2, ← h3, ecoAgg_sum, ecoAgg_snd]
      simp
    · rw [← h3, ecoAgg_snd]
      omega

/-- C5 witness: a concrete successful run with two commits of one ecosystem
and one commit of another. -/
theorem c5_overall_total_witness :
    summarizeData (fun d => some d)
        (some [⟨"a/b", "E", [⟨"s1", "u", some "d1", "m"⟩, ⟨"s2", "u", some "d2", "m"⟩]⟩,
               ⟨"c/d", "F", [⟨"s3", "u", none, "m"⟩]⟩]) =
      SummResult.ok [("d1", 1), ("d2", 1)] [("E", 2), ("F", 1)] 3 ∧
    (3 = ((([("E", 2), ("F", 1)] : List (String × Nat))).map Prod.snd).sum ∧
      3 = totalCount [⟨"a/b", "E", [⟨"s1", "u", some "d1", "m"⟩, ⟨"s2", "u", some "d2", "m"⟩]⟩,
               ⟨"c/d", "F", [⟨"s3", "u", none, "m"⟩]⟩]) :=
  ⟨by decide,
    c5_overall_total (fun d => some d) _ [("d1", 1), ("d2", 1)] [("E", 2), ("F", 1)] 3
      (by decide)⟩

lemma countDay_pos_of_mem (toISO : String → Option String) (k : String)
    (c : CommitRecord) (cs : List CommitRecord) (hc : c ∈ cs)
    (hd : dayKey toISO c = some k) : 1 ≤ countDay toISO k cs := by
  induction cs with
  | nil => cases hc
  | cons c2 cs ih =>
    rcases List.mem_cons.mp hc with h2 | h2
    · subst h2
      simp only [countDay]
      rw [if_pos hd]
      omega
    · have h3 := ih h2
      simp only [countDay]
      omega

lemma countDay_le_dailyCount (toISO : String → Option String) (k : String)
    (rd : RepoCommitHistory) (data : List RepoCommitHistory) (h : rd ∈ data) :
    countDay toISO k rd.commits ≤ dailyCount toISO k data := by
  induction data with
  | nil => cases h
  | cons rd2 rest ih =>
    rcases List.mem_cons.mp h with h2 | h2
    · subst h2
      simp only [dailyCount]
      omega
    · have h3 := ih h2
      simp only [dailyCount]
      omega

lemma commits_le_ecoCount (rd : RepoCommitHistory) (data : List RepoCommitHistory)
    (h : rd ∈ data) : rd.commits.length ≤ ecoCount rd.ecosystem data := by
  induction data with
  | nil => cases h
  | cons rd2 rest ih =>
    rcases List.mem_cons.mp h with h2 | h2
    · subst h2
      have h3 : ecoCount rd.ecosystem (rd :: rest) =
          rd.commits.length + ecoCount rd.ecosystem rest := by
        simp [ecoCount]
      omega
    · have h3 := ih h2
      simp only [ecoCount]
      omega

/-- C7 (amended): on every summarizer run that completes, the DailySummary
value at each day equals the number of commits whose present, non-empty date
converts to that UTC calendar day — so absent and empty (falsy) dates are
excluded from DailySummary without error, and every present, non-empty,
valid date is counted under its UTC calendar day — while the
EcosystemSummary value at each ecosystem counts all commits of that
ecosystem's entries, dated or not.  In particular a commit with a present,
non-empty, valid date makes its day's counter positive, and every commit
keeps its ecosystem's counter positive.  (A present, non-empty date the date
conversion rejects aborts the run instead, see C10.) -/
theorem c7_amended (toISO : String → Option String) (data : List RepoCommitHistory)
    (daily eco : List (String × Nat)) (total : Nat)
    (h : summarizeData toISO (some data) = SummResult.ok daily eco total) :
    (∀ k, getv daily k = dailyCount toISO k data) ∧
    (∀ e, getv eco e = ecoCount e data) ∧
    (∀ rd ∈ data, ∀ c ∈ rd.commits, ∀ d k, c.date = some d → d ≠ "" → toISO d = some k →
      1 ≤ getv daily k) ∧
    (∀ rd ∈ data, ∀ c ∈ rd.commits, 1 ≤ getv eco rd.ecosystem) := by
  simp only [summarizeData] at h
  cases hda : dailyAgg toISO [] data with
  | none =>
    simp only [hda] at h
    exact SummResult.noConfusion h
  | some d0 =>
    simp only [hda] at h
    injection h with h1 h2 h3
    subst h1 h2 h3
    have hdaily : ∀ k, getv d0 k = dailyCount toISO k data := by
      intro k
      have hq := dailyAgg_eq_some toISO data [] d0 hda k
      simpa [getv] using hq
    have heco : ∀ e, getv (ecoAgg ([], 0) data).1 e = ecoCount e data := by
      intro e
      have hq := ecoAgg_getv data [] 0 e
      simpa [getv] using hq
    refine ⟨hdaily, heco, ?_, ?_⟩
    · intro rd hrd c hc d k hd hne hiso
      have hdk : dayKey toISO c = some k := by
        simp [dayKey, truthyDate, hd, hne, hiso]
      have hp := countDay_pos_of_mem toISO k c rd.commits hc hdk
      have hle := countDay_le_dailyCount toISO k rd data hrd
      rw [hdaily k]
      omega
    · intro rd hrd c hc
      have hle := commits_le_ecoCount rd data hrd
      have hpos : 0 < rd.commits.length :=
        List.length_pos.mpr (fun hcon => List.not_mem_nil c (hcon ▸ hc))
      rw [heco rd.ecosystem]
      omega

/-- C7 counterexample: a commit whose `date` field is present but equal to
the empty string is falsy in JS, so the summarizer completes successfully
with an empty DailySummary: the commit is counted under no day at all (the
DailySummary maps every key, in particular `""`, the day its date converts
to under this oracle, to `0`), although it is still counted in the ecosystem
totals.  The claim instead says every commit with a present date is counted
in DailySummary under its UTC calendar date. -/
theorem c7_counterexample :
    summarizeData (fun d => some d)
        (some [⟨"a/b", "E", [⟨"s1", "u", some "", "m"⟩]⟩]) =
      SummResult.ok [] [("E", 1)] 1 ∧
    getv [] "" = 0 := ⟨by decide, rfl⟩

/-- C7 witness: a concrete successful run with one dated, one empty-dated and
one undated commit. -/
theorem c7_amended_witness :
    summarizeData (fun d => some d)
        (some [⟨"a/b", "E", [⟨"s1", "u", some "d1", "m"⟩, ⟨"s2", "u", some "", "m"⟩,
                             ⟨"s3", "u", none, "m"⟩]⟩]) =
      SummResult.ok [("d1", 1)] [("E", 3)] 3 ∧
    ((∀ k, getv [("d1", 1)] k =
        dailyCount (fun d => some d) k
          [⟨"a/b", "E", [⟨"s1", "u", some "d1", "m"⟩, ⟨"s2", "u", some "", "m"⟩,
                         ⟨"s3", "u", none, "m"⟩]⟩]) ∧
      (∀ e, getv [("E", 3)] e =
        ecoCount e [⟨"a/b", "E", [⟨"s1", "u", some "d1", "m"⟩, ⟨"s2", "u", some "", "m"⟩,
                                  ⟨"s3", "u", none, "m"⟩]⟩]) ∧
      (∀ rd ∈ ([⟨"a/b", "E", [⟨"s1", "u", some "d1", "m"⟩, ⟨"s2", "u", some "", "m"⟩,
                              ⟨"s3", "u", none, "m"⟩]⟩] : List RepoCommitHistory),
        ∀ c ∈ rd.commits, ∀ d k, c.date = some d → d ≠ "" → (fun d => some d) d = some k →
          1 ≤ getv [("d1", 1)] k) ∧
      (∀ rd ∈ ([⟨"a/b", "E", [⟨"s1", "u", some "d1", "m"⟩, ⟨"s2", "u", some "", "m"⟩,
                              ⟨"s3", "u", none, "m"⟩]⟩] : List RepoCommitHistory),
        ∀ c ∈ rd.commits, 1 ≤ getv [("E", 3)] rd.ecosystem)) :=
  ⟨by decide, c7_amended (fun d => some d) _ [("d1", 1)] [("E", 3)] 3 (by decide)⟩

lemma countDay_eq_sum (toISO : String → Option String) (k : String)
    (cs : List CommitRecord) :
    countDay toISO k cs = (cs.map (fun c => if dayKey toISO c = some k then 1 else 0)).sum := by
  induction cs with
  | nil => simp [countDay]
  | cons c cs ih => simp [countDay, ih]

lemma totalCount_eq_sum (data : List RepoCommitHistory) :
    totalCount data = (data.map (fun rd => rd.commits.length)).sum := by
  induction data with
  | nil => simp [totalCount]
  | cons rd rest ih => simp [totalCount, ih]

lemma ecoCount_eq_sum (e : String) (data : List RepoCommitHistory) :
    ecoCount e data =
      (data.map (fun rd => if rd.ecosystem = e then rd.commits.length else 0)).sum := by
  induction data with
  | nil => simp [ecoCount]
  | cons rd rest ih => simp [ecoCount, ih]

lemma dailyCount_eq_sum (toISO : String → Option String) (k : String)
    (data : List RepoCommitHistory) :
    dailyCount toISO k data = (data.map (fun rd => countDay toISO k rd.commits)).sum := by
  induction data with
  | nil => simp [dailyCount]
  | cons rd rest ih => simp [dailyCount, ih]

lemma countDay_perm (toISO : String → Option String) (k : String)
    (cs1 cs2 : List CommitRecord) (h : List.Perm cs1 cs2) :
    countDay toISO k cs1 = countDay toISO k cs2 := by
  rw [countDay_eq_sum, countDay_eq_sum]
  exact (h.map _).sum_eq

lemma map_eq_of_forall₂ {α : Type} (f : RepoCommitHistory → α)
    (hf : ∀ a b, EntryPerm a b → f a = f b)
    (x z : List RepoCommitHistory) (h : List.Forall₂ EntryPerm x z) :
    x.map f = z.map f := by
  induction h with
  | nil => rfl
  | cons hab h ih => simp [hf _ _ hab, ih]

lemma allOK_iff_of_forall₂ (toISO : String → Option String)
    (x z : List RepoCommitHistory) (h : List.Forall₂ EntryPerm x z) :
    (∀ rd ∈ x, ∀ c ∈ rd.commits, commitOK toISO c) ↔
      (∀ rd ∈ z, ∀ c ∈ rd.commits, commitOK toISO c) := by
  induction h with
  | nil => simp
  | cons hab h ih =>
    simp only [List.forall_mem_cons]
    rw [ih]
    constructor
    · rintro ⟨h1, h2⟩
      refine ⟨?_, h2⟩
      intro c hc
      exact h1 c (hab.2.2.mem_iff.mpr hc)
    · rintro ⟨h1, h2⟩
      refine ⟨?_, h2⟩
      intro c hc
      exact h1 c (hab.2.2.mem_iff.mp hc)

lemma allOK_iff_of_perm (toISO : String → Option String)
    (z y : List RepoCommitHistory) (h : List.Perm z y) :
    (∀ rd ∈ z, ∀ c ∈ rd.commits, commitOK toISO c) ↔
      (∀ rd ∈ y, ∀ c ∈ rd.commits, commitOK toISO c) := by
  constructor
  · intro hall rd hrd
    exact hall rd (h.mem_iff.mpr hrd)
  · intro hall rd hrd
    exact hall rd (h.mem_iff.mp hrd)

/-- C6: permuting the order of the input collection's entries, or the order
of the commits inside any entry, yields an identical summarizer result: the
same kind of outcome, and on success the same DailySummary mapping, the same
EcosystemSummary mapping and the same overall total (both aggregations are
order-independent folds). -/
theorem c6_order_independent (toISO : String → Option String)
    (x y : List RepoCommitHistory) (h : CollPerm x y) :
    ResultEquiv (summarizeData toISO (some x)) (summarizeData toISO (some y)) := by
  obtain ⟨z, hxz, hzy⟩ := h
  have htot : totalCount x = totalCount y := by
    rw [totalCount_eq_sum, totalCount_eq_sum,
      map_eq_of_forall₂ _ (fun a b hab => hab.2.2.length_eq) x z hxz]
    exact (hzy.map _).sum_eq
  have heco : ∀ e, ecoCount e x = ecoCount e y := by
    intro e
    rw [ecoCount_eq_sum, ecoCount_eq_sum,
      map_eq_of_forall₂ _ (fun a b hab => by rw [hab.2.1, hab.2.2.length_eq]) x z hxz]
    exact (hzy.map _).sum_eq
  have hday : ∀ k, dailyCount toISO k x = dailyCount toISO k y := by
    intro k
    rw [dailyCount_eq_sum, dailyCount_eq_sum,
      map_eq_of_forall₂ _ (fun a b hab => countDay_perm toISO k _ _ hab.2.2) x z hxz]
    exact (hzy.map _).sum_eq
  have hok : (∀ rd ∈ x, ∀ c ∈ rd.commits, commitOK toISO c) ↔
      (∀ rd ∈ y, ∀ c ∈ rd.commits, commitOK toISO c) :=
    (allOK_iff_of_forall₂ toISO x z hxz).trans (allOK_iff_of_perm toISO z y hzy)
  simp only [summarizeData]
  cases hdx : dailyAgg toISO [] x with
  | none =>
    have hnx : ¬ ∀ rd ∈ x, ∀ c ∈ rd.commits, commitOK toISO c := by
      intro hall
      exact (dailyAgg_ne_none_iff toISO x []).mpr hall hdx
    have hny : dailyAgg toISO [] y = none := by
      by_contra hcon
      exact hnx (hok.mpr ((dailyAgg_ne_none_iff toISO y []).mp hcon))
    simp only [hny]
    trivial
  | some dx =>
    have hney : dailyAgg toISO [] y ≠ none := by
      rw [dailyAgg_ne_none_iff]
      refine hok.mp ((dailyAgg_ne_none_iff toISO x []).mp ?_)
      rw [hdx]
      exact fun hc => Option.noConfusion hc
    cases hdy : dailyAgg toISO [] y with
    | none => exact absurd hdy hney
    | some dy =>
      simp only [ResultEquiv]
      refine ⟨?_, ?_, ?_⟩
      · intro k
        rw [dailyAgg_eq_some toISO x [] dx hdx k, dailyAgg_eq_some toISO y [] dy hdy k,
          hday k]
      · intro e
        rw [ecoAgg_getv, ecoAgg_getv, heco e]
      · rw [ecoAgg_snd, ecoAgg_snd, htot]

/-- C6 witness: a concrete pair of collections, one obtained from the other
by swapping the two entries and the two commits of the first entry. -/
theorem c6_order_independent_witness :
    CollPerm
      [⟨"a/b", "E", [⟨"s1", "u", some "d1", "m"⟩, ⟨"s2", "u", some "d2", "m"⟩]⟩,
       ⟨"c/d", "F", []⟩]
      [⟨"c/d", "F", []⟩,
       ⟨"a/b", "E", [⟨"s2", "u", some "d2", "m"⟩, ⟨"s1", "u", some "d1", "m"⟩]⟩] ∧
    ResultEquiv
      (summarizeData (fun d => some d)
        (some [⟨"a/b", "E", [⟨"s1", "u", some "d1", "m"⟩, ⟨"s2", "u", some "d2", "m"⟩]⟩,
               ⟨"c/d", "F", []⟩]))
      (summarizeData (fun d => some d)
        (some [⟨"c/d", "F", []⟩,
               ⟨"a/b", "E", [⟨"s2", "u", some "d2", "m"⟩, ⟨"s1", "u", some "d1", "m"⟩]⟩])) := by
  have hcp : CollPerm
      [⟨"a/b", "E", [⟨"s1", "u", some "d1", "m"⟩, ⟨"s2", "u", some "d2", "m"⟩]⟩,
       ⟨"c/d", "F", []⟩]
      [⟨"c/d", "F", []⟩,
       ⟨"a/b", "E", [⟨"s2", "u", some "d2", "m"⟩, ⟨"s1", "u", some "d1", "m"⟩]⟩] := by
    refine ⟨[⟨"a/b", "E", [⟨"s2", "u", some "d2", "m"⟩, ⟨"s1", "u", some "d1", "m"⟩]⟩,
             ⟨"c/d", "F", []⟩], ?_, ?_⟩
    · exact List.Forall₂.cons ⟨rfl, rfl, List.Perm.swap _ _ _⟩
        (List.Forall₂.cons ⟨rfl, rfl, List.Perm.refl _⟩ List.Forall₂.nil)
    · exact List.Perm.swap _ _ _
  exact ⟨hcp, c6_order_independent _ _ _ hcp⟩

lemma beginsWith_iff (p : List Char) : ∀ s : List Char,
    beginsWith p s = true ↔ ∃ r, s = p ++ r := by
  induction p with
  | nil =>
    intro s
    simp [beginsWith]
  | cons a as ih =>
    intro s
    cases s with
    | nil =>
      simp [beginsWith]
    | cons b bs =>
      simp only [beginsWith, Bool.and_eq_true, beq_iff_eq, ih bs, List.cons_append,
        List.cons.injEq]
      constructor
      · rintro ⟨hab, r, hr⟩
        exact ⟨r, hab.symm, hr⟩
      · rintro ⟨r, hba, hr⟩
        exact ⟨hba.symm, r, hr⟩

lemma firstSegment_append (sep a b : List Char) (hsep : sep ≠ [])
    (hfirst : ∀ a' b', a ++ sep ++ b = a' ++ sep ++ b' → a.length ≤ a'.length) :
    firstSegment sep (a ++ sep ++ b) = a := by
  induction a with
  | nil =>
    cases hs : sep with
    | nil => exact absurd hs hsep
    | cons c cs =>
      have hb : beginsWith (c :: cs) (c :: (cs ++ b)) = true :=
        (beginsWith_iff (c :: cs) (c :: (cs ++ b))).2 ⟨b, by simp⟩
      subst hs
      show firstSegment (c :: cs) ([] ++ (c :: cs) ++ b) = []
      simp [firstSegment, hb]
  | cons x a' ih =>
    have harg : (x :: a') ++ sep ++ b = x :: (a' ++ sep ++ b) := by simp
    have hnb : beginsWith sep (x :: (a' ++ sep ++ b)) = false := by
      by_contra hcon
      have htrue : beginsWith sep (x :: (a' ++ sep ++ b)) = true := by
        cases hbw : beginsWith sep (x :: (a' ++ sep ++ b))
        · exact absurd hbw hcon
        · rfl
      obtain ⟨r, hr⟩ := (beginsWith_iff sep _).1 htrue
      have hlen := hfirst [] r (by rw [harg, hr]; simp)
      simp at hlen
    have hfirst' : ∀ a'' b'', a' ++ sep ++ b = a'' ++ sep ++ b'' →
        a'.length ≤ a''.length := by
      intro a'' b'' heq
      have hx : (x :: a') ++ sep ++ b = (x :: a'') ++ sep ++ b'' := by
        simp only [List.cons_append, List.append_assoc] at heq ⊢
        rw [heq]
      have hlen := hfirst (x :: a'') b'' hx
      simpa using hlen
    rw [harg]
    simp only [firstSegment, hnb, Bool.false_eq_true, if_false, List.cons.injEq, true_and]
    exact ih hfirst'

/-- C8: for every ecosystem label that decomposes as `a ++ " - " ++ b` with
`a` minimal (that is, `a` is exactly the substring before the first
occurrence of the delimiter `" - "`), cleaning returns `a` trimmed; an
absent label and the empty label both yield the literal string `"Unknown"`. -/
theorem c8_clean_ecosystem (s a b : List Char)
    (hsplit : s = a ++ " - ".data ++ b)
    (hfirst : ∀ a' b', s = a' ++ " - ".data ++ b' → a.length ≤ a'.length) :
    cleanEcosystemName (some s) = trimChars a ∧
    cleanEcosystemName none = "Unknown".data ∧
    cleanEcosystemName (some []) = "Unknown".data := by
  refine ⟨?_, rfl, rfl⟩
  subst hsplit
  have hne : ¬ (a ++ " - ".data ++ b = []) := by
    intro hcon
    rcases List.append_eq_nil.mp hcon with ⟨h1, h2⟩
    rcases List.append_eq_nil.mp h1 with ⟨h3, h4⟩
    exact (by decide : " - ".data ≠ []) h4
  simp only [cleanEcosystemName, hne, if_false]
  rw [firstSegment_append " - ".data a b (by decide) hfirst]

/-- C8 witness: the concrete label `"a - b"`, whose unique decomposition
around the delimiter has the one-character segment `['a']` in front. -/
theorem c8_clean_ecosystem_witness :
    ((['a', ' ', '-', ' ', 'b'] : List Char) = ['a'] ++ " - ".data ++ ['b']) ∧
    (cleanEcosystemName (some ['a', ' ', '-', ' ', 'b']) = trimChars ['a'] ∧
     cleanEcosystemName none = "Unknown".data ∧
     cleanEcosystemName (some []) = "Unknown".data) := by
  refine ⟨by decide, c8_clean_ecosystem ['a', ' ', '-', ' ', 'b'] ['a'] ['b'] (by decide) ?_⟩
  intro a' b' h
  cases a' with
  | nil =>
    exfalso
    have hb : beginsWith " - ".data (['a', ' ', '-', ' ', 'b'] : List Char) = true :=
      (beginsWith_iff " - ".data _).2 ⟨b', by rw [List.nil_append] at h; exact h⟩
    exact absurd hb (by decide)
  | cons u us => simp

/-- C1: evaluation of the embedded `cleanRepoUrl` at the GitHub URL
`https://github.com/owner/legit` (hostname `github.com`, pathname
`/owner/legit`): because the regex `/.git$/` has an unescaped dot, the
replace removes the final four characters `egit` even though the path does
not end in the literal `.git`, and the function returns repo `"l"` instead
of `"legit"` — contradicting the claim (and the spec), which say that only a
trailing `.git` suffix is stripped and the result should be the first two
path segments, here `owner` and `legit`. -/
theorem c1_code_behavior :
    cleanRepoUrl (some ⟨"github.com", "/owner/legit".data⟩) =
      some ("owner".data, "l".data) ∧
    "l".data ≠ "legit".data := ⟨by decide, by decide⟩

end Ecosystems
